import Mathlib

/-!
Verification of the rate-distortion sweep engine of
`reconstructing_eae_kodak.py` (functions `fix_gamma` and
`vary_gamma_fix_bin_widths`).

The file embeds, in Lean:
  * the quantization / centering pipeline of `fix_gamma`
    (source lines 156, 163, 169-175);
  * the matrix-filling sweep loops with their failure behaviour
    (source lines 107-110, 166-206, 287-291, 292-350);
  * the TensorFlow session / default-graph lifecycle of both sweep
    functions (source lines 125-151, 164, 207-209, 303-339);
  * the lossless-rate inner loop (source lines 183-192);
  * spec-modelled versions of the helper routines that live outside
    the provided sources (`tls.quantize_per_map`, `tls.rate_3d`,
    `tls.cast_bt601`, `tls.psnr_2d`), each marked as such in its
    doc comment.

Floating-point arrays are idealised as exact rationals (or reals where
logarithms are needed).
-/

/-! ### Quantizer -/

/-- Modelled from the spec: the body of `tls.quantize_per_map` is not under
`src/` (only its call sites at lines 170 and 330 of
`reconstructing_eae_kodak.py` are).  Per the spec (§4.3), quantization uses
round to nearest with halves rounded away from zero.  `roundAway x` is that
rounding of a rational `x` to an integer. -/
def roundAway (x : ℚ) : ℤ :=
  if 0 ≤ x then ⌊x + 1/2⌋ else ⌈x - 1/2⌉

/-- Modelled from the spec: scalar quantization with bin width `b`,
`round_to_nearest(v / b) * b` (spec §4.3). -/
def quantizeVal (b v : ℚ) : ℚ :=
  (roundAway (v / b) : ℚ) * b

/-- A latent tensor, indexed `[image, row, col, channel]`
(`y_float32` in the source; floats idealised as rationals). -/
def Tensor4 : Type := Nat → Nat → Nat → Nat → ℚ

/-- `tiled_map_mean` (source line 156): the per-channel mean broadcast over
the image and the two spatial axes. -/
def tiledMapMean (mapMean : Nat → ℚ) : Tensor4 :=
  fun _ _ _ ch => mapMean ch

/-- `centered_y_float32 = y_float32 - tiled_map_mean` (source line 163). -/
def centeredY (y : Tensor4) (mapMean : Nat → ℚ) : Tensor4 :=
  fun i r c ch => y i r c ch - tiledMapMean mapMean i r c ch

/-- Modelled from the spec: `tls.quantize_per_map` quantizes each channel
(feature map) of a tensor with that channel's bin width, broadcast over the
image and spatial axes (spec §4.3). -/
def quantize_per_map (t : Tensor4) (bw : Nat → ℚ) : Tensor4 :=
  fun i r c ch => quantizeVal (bw ch) (t i r c ch)

/-- `bin_widths_test = multiplier * bin_widths` (source line 169). -/
def binWidthsTest (multiplier : ℚ) (bw : Nat → ℚ) : Nat → ℚ :=
  fun ch => multiplier * bw ch

/-- `centered_quantized_y_float32` (source line 170). -/
def centeredQuantizedY (y : Tensor4) (mapMean : Nat → ℚ) (multiplier : ℚ)
    (bw : Nat → ℚ) : Tensor4 :=
  quantize_per_map (centeredY y mapMean) (binWidthsTest multiplier bw)

/-- `off_centered_quantized_y_float32 = centered_quantized_y_float32 +
tiled_map_mean` (source line 171). -/
def offCenteredQuantizedY (y : Tensor4) (mapMean : Nat → ℚ) (multiplier : ℚ)
    (bw : Nat → ℚ) : Tensor4 :=
  fun i r c ch =>
    centeredQuantizedY y mapMean multiplier bw i r c ch
      + tiledMapMean mapMean i r c ch

/-- The tensor fed to `isolated_decoder.node_quantized_y` (source lines
172-175): it is the off-centered quantized tensor. -/
def decoderFeed (y : Tensor4) (mapMean : Nat → ℚ) (multiplier : ℚ)
    (bw : Nat → ℚ) : Tensor4 :=
  offCenteredQuantizedY y mapMean multiplier bw

/-! ### Result matrices and the sweep loops

`fix_gamma` allocates `rate = numpy.zeros((nb_points, nb_images))` and
`psnr = numpy.zeros((nb_points, nb_images))` (lines 109-110; lines 290-291
in `vary_gamma_fix_bin_widths`) and fills them cell by cell inside
`for i in range(nb_points): ... for j in range(nb_images): ...`
(lines 166-206 and 292-357).  The matrices are modelled as total functions
from indices to values, together with a ghost per-cell write counter that
records how many times each cell has been assigned. -/

structure Matrices where
  rate : Nat → Nat → ℚ
  psnr : Nat → Nat → ℚ
  rateWrites : Nat → Nat → Nat
  psnrWrites : Nat → Nat → Nat

/-- `numpy.zeros((nb_points, nb_images))` twice (lines 109-110 / 290-291):
every cell of both matrices starts at `0`, and no cell has been written. -/
def initMatrices : Matrices :=
  ⟨fun _ _ => 0, fun _ _ => 0, fun _ _ => 0, fun _ _ => 0⟩

/-- `rate[i, j] = v` (line 192, 194 or 345): a plain numpy array
assignment.  It stores `v` whether or not the cell was written before. -/
def writeRate (m : Matrices) (i j : Nat) (v : ℚ) : Matrices :=
  { m with
    rate := fun i' j' => if i' = i ∧ j' = j then v else m.rate i' j'
    rateWrites := fun i' j' =>
      if i' = i ∧ j' = j then m.rateWrites i' j' + 1 else m.rateWrites i' j' }

/-- `psnr[i, j] = v` (line 198 or 349). -/
def writePsnr (m : Matrices) (i j : Nat) (v : ℚ) : Matrices :=
  { m with
    psnr := fun i' j' => if i' = i ∧ j' = j then v else m.psnr i' j'
    psnrWrites := fun i' j' =>
      if i' = i ∧ j' = j then m.psnrWrites i' j' + 1 else m.psnrWrites i' j' }

/-- The external computations performed while filling the matrices, any of
which can raise a Python exception:
* `configPre i` — the per-configuration work before the image loop
  (quantization, `sess.run` of the decoder, `cast_bt601`: lines 167-179,
  resp. 293-343): `false` means it raises;
* `rateVal i j` — the rate computation for image `j` (lossless coder call
  or `tls.rate_3d`, lines 187-197 resp. 345-348): `none` means it raises;
* `psnrVal i j` — `tls.psnr_2d` (lines 198-199 resp. 349-350): `none`
  means it raises;
* `visOk i j` — `tls.visualize_rotated_luminance` (lines 201-206 resp.
  352-357): `false` means it raises. -/
structure SweepOracle where
  configPre : Nat → Bool
  rateVal : Nat → Nat → Option ℚ
  psnrVal : Nat → Nat → Option ℚ
  visOk : Nat → Nat → Bool

/-- The inner image loop `for j in range(nb_images)` for configuration `i`
(lines 186-206 resp. 344-357).  A raised exception propagates out of the
sweep function: `.error m` records the matrix state left behind at that
moment (the function never returns it, but its cells have been assigned). -/
def runImages (o : SweepOracle) (i : Nat) :
    List Nat → Matrices → Except Matrices Matrices
  | [], m => .ok m
  | j :: js, m =>
    match o.rateVal i j with
    | none => .error m
    | some r =>
      let m1 := writeRate m i j r
      match o.psnrVal i j with
      | none => .error m1
      | some p =>
        let m2 := writePsnr m1 i j p
        if o.visOk i j then runImages o i js m2 else .error m2

/-- The outer configuration loop `for i in range(nb_points)` (lines 166-206
resp. 292-357). -/
def runConfigs (o : SweepOracle) (nbImages : Nat) :
    List Nat → Matrices → Except Matrices Matrices
  | [], m => .ok m
  | i :: is, m =>
    if o.configPre i then
      match runImages o i (List.range nbImages) m with
      | .ok m' => runConfigs o nbImages is m'
      | .error m' => .error m'
    else .error m

/-- A whole sweep: allocate the all-zero matrices, then run every
configuration in order. -/
def sweepMatrices (o : SweepOracle) (nbPoints nbImages : Nat) :
    Except Matrices Matrices :=
  runConfigs o nbImages (List.range nbPoints) initMatrices

/-- The matrix state at the end of a run, whether the run returned normally
or was aborted by an exception. -/
def finalState : Except Matrices Matrices → Matrices
  | .ok m => m
  | .error m => m

/-- Did a run abort with a propagating exception? -/
def runFailed : Except Matrices Matrices → Bool
  | .ok _ => false
  | .error _ => true

/-- Two matrix states agree at cell `(i', j')` in both matrices and both
write counters. -/
def AgreeAt (i' j' : Nat) (m m' : Matrices) : Prop :=
  m'.rate i' j' = m.rate i' j' ∧ m'.psnr i' j' = m.psnr i' j' ∧
  m'.rateWrites i' j' = m.rateWrites i' j' ∧
  m'.psnrWrites i' j' = m.psnrWrites i' j'

/-- Configuration `i` runs to completion: its pre-image-loop work and every
per-image step succeed. -/
def configCompletes (o : SweepOracle) (nbImages i : Nat) : Prop :=
  o.configPre i = true ∧
  ∀ j < nbImages, (o.rateVal i j).isSome ∧ (o.psnrVal i j).isSome ∧
    o.visOk i j = true

instance (o : SweepOracle) (nbImages i : Nat) :
    Decidable (configCompletes o nbImages i) := by
  unfold configCompletes
  exact inferInstance

/-- No cell holds a value without having been assigned: an unwritten cell
still reads as its `numpy.zeros` initial value `0`. -/
def UnwrittenZero (m : Matrices) : Prop :=
  ∀ i j, (m.rateWrites i j = 0 → m.rate i j = 0) ∧
    (m.psnrWrites i j = 0 → m.psnr i j = 0)

/-- A sweep run over one configuration and two images in which the rate
computation succeeds for image 0 and raises for image 1. -/
def failingOracle : SweepOracle :=
  ⟨fun _ => true,
   fun i j => if i = 0 ∧ j = 0 then some 1 else none,
   fun _ _ => some 2,
   fun _ _ => true⟩

/-- A sweep run in which every external computation succeeds, with rate 1
and PSNR 2 everywhere. -/
def allOkOracle : SweepOracle :=
  ⟨fun _ => true, fun _ _ => some 1, fun _ _ => some 2, fun _ _ => true⟩

/-! ### TensorFlow session and default-graph lifecycle

`fix_gamma` builds the encoder graph (line 125), opens a session for
encoding (`with tf.Session() as sess:`, lines 132-141), destroys the graph
(`tf.reset_default_graph()`, line 144), builds the decoder graph (line
147), loads statistics (lines 155-162), opens a session for decoding
(lines 164-206) and destroys the graph again (line 209).
`vary_gamma_fix_bin_widths` repeats the same shape once per configuration
(lines 303-343).  The `with` statement closes the session on both the
normal and the exception path; `tf.reset_default_graph()` is a plain
statement on the normal path only. -/

/-- A Python exception, as far as the lifecycle model distinguishes them. -/
inductive PyExc where
  | assertMismatch
  | other
deriving DecidableEq

/-- The resident TensorFlow state: how many models currently live in the
default graph, and whether a session is open. -/
structure TFState where
  residentModels : Nat
  sessionLive : Bool
deriving DecidableEq

/-- Observable lifecycle operations. -/
inductive TFOp where
  | createModel
  | sessionOpen
  | sessionClose
  | graphReset
deriving DecidableEq

/-- A running evaluation: current TF state, the trace of TF states after
each executed operation, the list of executed operations, the pending
exception (if any), and whether execution is still live. -/
structure RunState where
  st : TFState
  trace : List TFState
  ops : List TFOp
  exc : Option PyExc
  ok : Bool
deriving DecidableEq

/-- The state at entry of a sweep function: empty default graph, no
session, no exception. -/
def initialRunState : RunState :=
  ⟨⟨0, false⟩, [⟨0, false⟩], [], none, true⟩

/-- Execute one lifecycle operation (skipped if an exception is already
propagating). -/
def stepOp (op : TFOp) (f : TFState → TFState) (r : RunState) : RunState :=
  if r.ok then
    let s := f r.st
    ⟨s, r.trace ++ [s], r.ops ++ [op], r.exc, true⟩
  else r

/-- `EntropyAutoencoder(...)` / `IsolatedDecoder(...)` (lines 125, 147,
303, 326): adds a model to the default graph. -/
def createModelStep (r : RunState) : RunState :=
  stepOp .createModel (fun s => ⟨s.residentModels + 1, s.sessionLive⟩) r

/-- `tf.reset_default_graph()` (lines 144, 209, 322, 339): destroys every
model in the default graph.  A plain statement: it executes only when
reached on the normal path. -/
def resetGraphStep (r : RunState) : RunState :=
  stepOp .graphReset (fun s => ⟨0, s.sessionLive⟩) r

/-- A computation that may raise exception `e` (skipped if an exception is
already propagating).  It performs no lifecycle operation of its own. -/
def mayRaise (fail : Bool) (e : PyExc) (r : RunState) : RunState :=
  if r.ok then
    if fail then ⟨r.st, r.trace, r.ops, some e, false⟩ else r
  else r

/-- `with tf.Session() as sess: body` (lines 132, 164, 310, 331): the
session opens, the body runs, and the session is closed on the normal exit
AND on the exception exit (the context manager re-raises afterwards). -/
def withSession (body : RunState → RunState) (r : RunState) : RunState :=
  if r.ok then
    let r1 := stepOp .sessionOpen (fun s => ⟨s.residentModels, true⟩) r
    let r2 := body r1
    let s3 : TFState := ⟨r2.st.residentModels, false⟩
    ⟨s3, r2.trace ++ [s3], r2.ops ++ [TFOp.sessionClose], r2.exc, r2.ok⟩
  else r

/-- The points at which `fix_gamma` can raise: restoring the encoder
checkpoint (line 133), encoding (lines 134-141), loading the statistics
artifacts (lines 155-162), restoring the decoder checkpoint (line 165),
and any step of the per-configuration decode loop (lines 166-206). -/
structure FGFail where
  encoderInit : Bool
  encodePhase : Bool
  statsLoad : Bool
  decoderInit : Bool
  decodeLoop : Bool
deriving DecidableEq

/-- The session/graph lifecycle of `fix_gamma` (lines 125-209), with the
failure behaviour of each external step given by `f`. -/
def fix_gamma_lifecycle (f : FGFail) : RunState :=
  initialRunState
  |> createModelStep
  |> withSession (fun r =>
      mayRaise f.encodePhase .other (mayRaise f.encoderInit .other r))
  |> resetGraphStep
  |> createModelStep
  |> mayRaise f.statsLoad .other
  |> withSession (fun r =>
      mayRaise f.decodeLoop .other (mayRaise f.decoderInit .other r))
  |> resetGraphStep

/-- The points at which one configuration of `vary_gamma_fix_bin_widths`
can raise: restoring the encoder (line 311), encoding (lines 312-319),
quantizing (line 330), restoring the decoder (line 332), decoding (lines
333-336), and the per-image rate/PSNR/visualization loop (lines 344-357). -/
structure VGFail where
  encoderInit : Bool
  encodePhase : Bool
  quantizePhase : Bool
  decoderInit : Bool
  decodePhase : Bool
  imageLoop : Bool
deriving DecidableEq

/-- One iteration of the configuration loop of `vary_gamma_fix_bin_widths`
(lines 292-357). -/
def vg_config_lifecycle (f : VGFail) (r : RunState) : RunState :=
  r
  |> createModelStep
  |> withSession (fun rr =>
      mayRaise f.encodePhase .other (mayRaise f.encoderInit .other rr))
  |> resetGraphStep
  |> createModelStep
  |> mayRaise f.quantizePhase .other
  |> withSession (fun rr =>
      mayRaise f.decodePhase .other (mayRaise f.decoderInit .other rr))
  |> resetGraphStep
  |> mayRaise f.imageLoop .other

/-- The configuration loop, one `VGFail` per configuration. -/
def vg_loop : List VGFail → RunState → RunState
  | [], r => r
  | f :: fs, r => vg_loop fs (vg_config_lifecycle f r)

/-- The lifecycle of `vary_gamma_fix_bin_widths` (lines 287-357): the
size assertion of line 288 runs first (it raises `AssertionError`, the
configuration-count-mismatch error, when the two sweep vectors disagree in
length), then the configuration loop. -/
def vary_gamma_fix_bin_widths_lifecycle (idxsTraining : List ℤ)
    (gammasScaling : List ℚ) (fails : List VGFail) : RunState :=
  vg_loop fails
    (mayRaise (decide (idxsTraining.length ≠ gammasScaling.length))
      .assertMismatch initialRunState)

/-- The failure pattern in which no external step raises. -/
def noFGFail : FGFail := ⟨false, false, false, false, false⟩

/-- The lifecycle invariant between top-level operations: no session open,
never more than one model resident (also throughout the recorded trace),
and exactly `k` models resident while execution is live. -/
def LifecycleInv (k : Nat) (r : RunState) : Prop :=
  r.st.sessionLive = false ∧
  (∀ s ∈ r.trace, s.residentModels ≤ 1) ∧
  r.st.residentModels ≤ 1 ∧
  (r.ok = true → r.st.residentModels = k)

/-! ### The lossless-rate inner loop -/

/-- One invocation of the external entropy-coding service
`lossless.compression.rescale_compress_lossless_maps` (lines 188-191):
the image's centered quantized tensor slice
(`centered_quantized_y_float32[j, :, :, :]`, flattened), the test bin
widths, the probability-table artifact path
(`path_to_binary_probabilities`) and the exception flags
(`idx_map_exception`). -/
structure LosslessCall where
  tensor : List ℚ
  binWidths : List ℚ
  probTable : String
  excFlags : List Nat
deriving DecidableEq

/-- The lossless branch of the inner image loop of `fix_gamma` (lines
186-192): for each image index `j` in order, the coder is invoked once on
that image's slice, and `rate[i, j] = float(nb_bits) / (h_in * w_in)`.
The coder's internals are out of scope (spec §1 treats it as the opaque
service `bits = code(quantized_tensor, bin_widths, probability_table,
exceptions)`), so it is the parameter `code` returning the exact bit
count.  Returns the list of coder invocations and the list of
`(j, rate[i, j])` assignments, in loop order. -/
def fix_gamma_lossless_loop
    (code : List ℚ → List ℚ → String → List Nat → Nat)
    (cq : Nat → List ℚ) (bwTest : List ℚ) (probPath : String)
    (excFlags : List Nat) (hIn wIn : Nat) :
    List Nat → List LosslessCall × List (Nat × ℚ)
  | [] => ([], [])
  | j :: js =>
    let nbBits := code (cq j) bwTest probPath excFlags
    let rateVal : ℚ := (nbBits : ℚ) / ((hIn : ℚ) * (wIn : ℚ))
    let rest := fix_gamma_lossless_loop code cq bwTest probPath excFlags
      hIn wIn js
    (⟨cq j, bwTest, probPath, excFlags⟩ :: rest.1, (j, rateVal) :: rest.2)

/-! ### Distortion meter -/

/-- Modelled from the spec: `tls.cast_bt601` is not under `src/` (only its
call sites, lines 179 and 343).  Per spec §4.5 step 1 it casts a float
sample to the reference's discrete sample format, clipped to the valid
BT.601 digital range; the source comments (lines 177-178 and 341-342)
record that the result spans `[|16, 235|]`.  Clip to `[16, 235]`, then
round to an integer sample. -/
def cast_bt601 (x : ℚ) : ℤ :=
  roundAway (max 16 (min 235 x))

/-- Modelled from the spec: `mse = mean((reference - reconstruction)^2)`
(spec §4.5 step 2) over flattened integer images. -/
def mse (ref recon : List ℤ) : ℚ :=
  (List.zipWith (fun a b => ((a - b : ℤ) : ℚ) ^ 2) ref recon).sum /
    (ref.length : ℚ)

/-- Modelled from the spec: `tls.psnr_2d` is not under `src/` (only its
call sites, lines 198-199 and 349-350).  Per spec §4.5 step 3:
`psnr = +∞` if `mse = 0`, otherwise `10·log10(peak^2 / mse)` with
`peak = 255`, the full representable uint8 sample range (not the clipped
`[16, 235]` sub-range used for casting). -/
noncomputable def psnr_2d (ref recon : List ℤ) : EReal :=
  if mse ref recon = 0 then ⊤
  else ((10 * Real.logb 10 ((255 : ℝ) ^ 2 / (mse ref recon : ℝ)) : ℝ) :
    EReal)

/-- The distortion measure of spec §4.5: cast the float reconstruction
with `cast_bt601` (line 179 resp. 343), then PSNR against the reference
(lines 198-199 resp. 349-350). -/
noncomputable def measure_distortion (ref : List ℤ) (reconFloat : List ℚ) :
    EReal :=
  psnr_2d ref (reconFloat.map cast_bt601)

/-! ### Analytic rate estimator -/

/-- Modelled from the spec: `tls.rate_3d` is not under `src/` (only its
call sites, lines 194-197 and 345-348).  Spec §4.4 describes AnalyticRate
as a closed-form bits-per-pixel estimate from `centered_quantized` and
`bin_widths` under a fixed parametric probability model, e.g. a
discretized symmetric unimodal distribution, and §9 leaves the exact
model open, asking the implementer to choose and document one.  Chosen
model: the CDF `F(x) = 1/2 + x / (2 (1 + |x|))` of a symmetric unimodal
distribution with full support. -/
noncomputable def rateCdf (x : ℝ) : ℝ :=
  1 / 2 + x / (2 * (1 + |x|))

/-- Modelled from the spec: the probability mass the model assigns to the
quantization bin of width `b` centred at the quantized value `v`. -/
noncomputable def binProb (b v : ℝ) : ℝ :=
  rateCdf (v + b / 2) - rateCdf (v - b / 2)

/-- Modelled from the spec: the ideal code length, in bits, of one
quantized sample under the discretized model. -/
noncomputable def codeLen (b v : ℝ) : ℝ :=
  -(Real.logb 2 (binProb b v))

/-- Modelled from the spec: the coding cost of one feature map (one
channel), whose samples all share the channel's bin width. -/
noncomputable def mapCost (b : ℝ) (vs : List ℝ) : ℝ :=
  (vs.map (codeLen b)).sum

/-- Modelled from the spec: `tls.rate_3d` — the analytic bits-per-pixel
estimate of a quantized latent tensor: the costs of the channel maps
(channel `k` priced with bin width `bws[k]`) summed and divided by the
image's pixel count `h_in * w_in`. -/
noncomputable def rate_3d (maps : List (List ℝ)) (bws : List ℝ)
    (hIn wIn : Nat) : ℝ :=
  (List.zipWith mapCost bws maps).sum / ((hIn : ℝ) * (wIn : ℝ))

/-! ### Basic facts about the rounding -/

theorem roundAway_intCast (n : ℤ) : roundAway (n : ℚ) = n := by
  unfold roundAway
  by_cases h : (0 : ℚ) ≤ (n : ℚ)
  · rw [if_pos h, Int.floor_eq_iff]
    constructor
    · linarith
    · norm_num
  · rw [if_neg h, Int.ceil_eq_iff]
    constructor
    · norm_num
    · linarith

theorem abs_sub_roundAway_le (x : ℚ) : |x - (roundAway x : ℚ)| ≤ 1/2 := by
  unfold roundAway
  by_cases h : 0 ≤ x
  · rw [if_pos h]
    have h1 : (⌊x + 1/2⌋ : ℚ) ≤ x + 1/2 := Int.floor_le _
    have h2 : x + 1/2 < (⌊x + 1/2⌋ : ℚ) + 1 := Int.lt_floor_add_one _
    rw [abs_le]; constructor <;> linarith
  · rw [if_neg h]
    have h1 : x - 1/2 ≤ (⌈x - 1/2⌉ : ℚ) := Int.le_ceil _
    have h2 : (⌈x - 1/2⌉ : ℚ) < x - 1/2 + 1 := Int.ceil_lt_add_one _
    rw [abs_le]; constructor <;> linarith

theorem roundAway_nearest (x : ℚ) (n : ℤ) :
    |x - (roundAway x : ℚ)| ≤ |x - (n : ℚ)| := by
  by_contra hlt
  push_neg at hlt
  have h1 : |x - (roundAway x : ℚ)| ≤ 1/2 := abs_sub_roundAway_le x
  have h2 : |(roundAway x : ℚ) - (n : ℚ)| < 1 := by
    calc |(roundAway x : ℚ) - (n : ℚ)|
        ≤ |x - (roundAway x : ℚ)| + |x - (n : ℚ)| := by
          have := abs_sub_abs_le_abs_sub ((roundAway x : ℚ)) ((n : ℚ))
          have h3 : (roundAway x : ℚ) - (n : ℚ) =
              -(x - (roundAway x : ℚ)) + (x - (n : ℚ)) := by ring
          rw [h3]
          calc |-(x - (roundAway x : ℚ)) + (x - (n : ℚ))|
              ≤ |-(x - (roundAway x : ℚ))| + |x - (n : ℚ)| := abs_add _ _
            _ = |x - (roundAway x : ℚ)| + |x - (n : ℚ)| := by rw [abs_neg]
      _ < 1/2 + 1/2 := by
          have h4 : |x - (n : ℚ)| < 1/2 := lt_of_lt_of_le hlt h1
          linarith
      _ = 1 := by norm_num
  have h5 : roundAway x = n := by
    have h6 : |((roundAway x - n : ℤ) : ℚ)| < 1 := by push_cast; exact h2
    have h7 : ((|roundAway x - n| : ℤ) : ℚ) < 1 := by
      rw [Int.cast_abs]; exact h6
    have h8 : |roundAway x - n| < 1 := by exact_mod_cast h7
    have h9 := abs_lt.mp h8
    omega
  rw [h5] at hlt
  exact absurd le_rfl (not_le.mpr hlt)

theorem roundAway_tie_away (x : ℚ) (htie : |x - (roundAway x : ℚ)| = 1/2) :
    |x| < |(roundAway x : ℚ)| := by
  unfold roundAway at *
  by_cases h : 0 ≤ x
  · rw [if_pos h] at htie ⊢
    have h1 : (⌊x + 1/2⌋ : ℚ) ≤ x + 1/2 := Int.floor_le _
    have h2 : x + 1/2 < (⌊x + 1/2⌋ : ℚ) + 1 := Int.lt_floor_add_one _
    have h3 : x - (⌊x + 1/2⌋ : ℚ) = -(1/2) := by
      rcases abs_eq (by norm_num : (0:ℚ) ≤ 1/2) |>.mp htie with h4 | h4
      · linarith
      · linarith
    have h5 : (⌊x + 1/2⌋ : ℚ) = x + 1/2 := by linarith
    rw [abs_of_nonneg h, abs_of_nonneg (by linarith : (0:ℚ) ≤ (⌊x + 1/2⌋ : ℚ))]
    linarith
  · rw [if_neg h] at htie ⊢
    push_neg at h
    have h1 : x - 1/2 ≤ (⌈x - 1/2⌉ : ℚ) := Int.le_ceil _
    have h2 : (⌈x - 1/2⌉ : ℚ) < x - 1/2 + 1 := Int.ceil_lt_add_one _
    have h3 : x - (⌈x - 1/2⌉ : ℚ) = 1/2 := by
      rcases abs_eq (by norm_num : (0:ℚ) ≤ 1/2) |>.mp htie with h4 | h4
      · linarith
      · linarith
    rw [abs_of_neg h, abs_of_neg (by linarith : (⌈x - 1/2⌉ : ℚ) < 0)]
    linarith

theorem quantizeVal_fixed (b v : ℚ) (hb : b ≠ 0) :
    quantizeVal b (quantizeVal b v) = quantizeVal b v := by
  unfold quantizeVal
  rw [mul_div_cancel_right₀ _ hb, roundAway_intCast]

/-! ### Claims C5 and C6: the quantizer -/

/-- **C5**: in `fix_gamma`, `centered = latent - broadcast(mean)` (line 163),
`centered_quantized = round_to_nearest(centered / bin_widths_test) * bin_widths_test`
applied independently per channel with round-half away from zero (lines
169-170, `quantize_per_map` modelled from the spec), `off_centered =
centered_quantized + broadcast(mean)` (line 171), and it is `off_centered`
that is fed to the decoder (lines 172-175).  The last conjunct checks that
`roundAway` really is round-to-nearest with ties away from zero. -/
theorem fix_gamma_quantizer_spec (y : Tensor4) (mapMean : Nat → ℚ)
    (multiplier : ℚ) (bw : Nat → ℚ)
    (_hb : ∀ ch, 0 < binWidthsTest multiplier bw ch) :
    (∀ i r c ch, centeredY y mapMean i r c ch = y i r c ch - mapMean ch) ∧
    (∀ i r c ch, centeredQuantizedY y mapMean multiplier bw i r c ch =
      (roundAway (centeredY y mapMean i r c ch /
          binWidthsTest multiplier bw ch) : ℚ) *
        binWidthsTest multiplier bw ch) ∧
    (∀ i r c ch, offCenteredQuantizedY y mapMean multiplier bw i r c ch =
      centeredQuantizedY y mapMean multiplier bw i r c ch + mapMean ch) ∧
    decoderFeed y mapMean multiplier bw =
      offCenteredQuantizedY y mapMean multiplier bw ∧
    (∀ x : ℚ, (∀ n : ℤ, |x - (roundAway x : ℚ)| ≤ |x - (n : ℚ)|) ∧
      (|x - (roundAway x : ℚ)| = 1/2 → |x| < |(roundAway x : ℚ)|)) := by
  refine ⟨fun i r c ch => rfl, fun i r c ch => rfl, fun i r c ch => rfl,
    rfl, fun x => ⟨roundAway_nearest x, roundAway_tie_away x⟩⟩

theorem fix_gamma_quantizer_spec_witness :
    (∀ ch, 0 < binWidthsTest 2 (fun _ => (1:ℚ)/2) ch) ∧
    ((∀ i r c ch, centeredY (fun _ _ _ _ => (3:ℚ)) (fun _ => 1) i r c ch =
        (fun _ _ _ _ => (3:ℚ)) i r c ch - (fun _ => (1:ℚ)) ch) ∧
    (∀ i r c ch, centeredQuantizedY (fun _ _ _ _ => (3:ℚ)) (fun _ => 1) 2
        (fun _ => (1:ℚ)/2) i r c ch =
      (roundAway (centeredY (fun _ _ _ _ => (3:ℚ)) (fun _ => 1) i r c ch /
          binWidthsTest 2 (fun _ => (1:ℚ)/2) ch) : ℚ) *
        binWidthsTest 2 (fun _ => (1:ℚ)/2) ch) ∧
    (∀ i r c ch, offCenteredQuantizedY (fun _ _ _ _ => (3:ℚ)) (fun _ => 1) 2
        (fun _ => (1:ℚ)/2) i r c ch =
      centeredQuantizedY (fun _ _ _ _ => (3:ℚ)) (fun _ => 1) 2
        (fun _ => (1:ℚ)/2) i r c ch + (fun _ => (1:ℚ)) ch) ∧
    decoderFeed (fun _ _ _ _ => (3:ℚ)) (fun _ => 1) 2 (fun _ => (1:ℚ)/2) =
      offCenteredQuantizedY (fun _ _ _ _ => (3:ℚ)) (fun _ => 1) 2
        (fun _ => (1:ℚ)/2) ∧
    (∀ x : ℚ, (∀ n : ℤ, |x - (roundAway x : ℚ)| ≤ |x - (n : ℚ)|) ∧
      (|x - (roundAway x : ℚ)| = 1/2 → |x| < |(roundAway x : ℚ)|))) :=
  ⟨fun _ => by unfold binWidthsTest; norm_num,
   fix_gamma_quantizer_spec _ _ _ _
     (fun _ => by unfold binWidthsTest; norm_num)⟩

/-- **C6**: quantization is idempotent: for bin width `b > 0`,
re-quantizing an already quantized value is a no-op, and the same holds
through the centering pipeline (quantize `v - m`, re-add the mean `m`,
remove it again, re-quantize: nothing changes). -/
theorem quantize_idempotent (b v m : ℚ) (hb : 0 < b) :
    quantizeVal b (quantizeVal b v) = quantizeVal b v ∧
    quantizeVal b ((quantizeVal b (v - m) + m) - m) + m =
      quantizeVal b (v - m) + m := by
  have hb' : b ≠ 0 := ne_of_gt hb
  refine ⟨quantizeVal_fixed b v hb', ?_⟩
  rw [add_sub_cancel_right, quantizeVal_fixed b (v - m) hb']

theorem quantize_idempotent_witness :
    (0 : ℚ) < 1/2 ∧
    (quantizeVal (1/2) (quantizeVal (1/2) (7/3)) = quantizeVal (1/2) (7/3) ∧
     quantizeVal (1/2) ((quantizeVal (1/2) ((7:ℚ)/3 - 5) + 5) - 5) + 5 =
       quantizeVal (1/2) ((7:ℚ)/3 - 5) + 5) :=
  ⟨by norm_num, quantize_idempotent (1/2) (7/3) 5 (by norm_num)⟩

/-! ### Lifecycle lemmas -/

theorem stepOp_not_ok (op : TFOp) (f : TFState → TFState) (r : RunState)
    (h : r.ok = false) : stepOp op f r = r := by
  simp [stepOp, h]

theorem mayRaise_not_ok (b : Bool) (e : PyExc) (r : RunState)
    (h : r.ok = false) : mayRaise b e r = r := by
  simp [mayRaise, h]

theorem withSession_not_ok (body : RunState → RunState) (r : RunState)
    (h : r.ok = false) : withSession body r = r := by
  simp [withSession, h]

theorem mayRaise_st_trace (b : Bool) (e : PyExc) (r : RunState) :
    (mayRaise b e r).st = r.st ∧ (mayRaise b e r).trace = r.trace := by
  unfold mayRaise
  by_cases h : r.ok <;> by_cases hb : b <;> simp [h, hb]

theorem LifecycleInv_createModel (r : RunState) (h : LifecycleInv 0 r) :
    LifecycleInv 1 (createModelStep r) := by
  obtain ⟨h1, h2, h3, h4⟩ := h
  unfold createModelStep stepOp
  by_cases hok : r.ok
  · rw [if_pos hok]
    refine ⟨h1, ?_, ?_, fun _ => ?_⟩ <;> simp [h4 hok, h1]
    intro s hs
    rcases hs with hs | hs
    · exact h2 s hs
    · simp [hs, h4 hok]
  · rw [if_neg hok]
    exact ⟨h1, h2, h3, fun hc => absurd hc (by simp [hok])⟩

theorem LifecycleInv_resetGraph (k : Nat) (r : RunState)
    (h : LifecycleInv k r) : LifecycleInv 0 (resetGraphStep r) := by
  obtain ⟨h1, h2, h3, h4⟩ := h
  unfold resetGraphStep stepOp
  by_cases hok : r.ok
  · rw [if_pos hok]
    refine ⟨h1, ?_, by simp, fun _ => rfl⟩
    intro s hs
    rcases List.mem_append.mp hs with hs | hs
    · exact h2 s hs
    · simp at hs
      simp [hs]
  · rw [if_neg hok]
    exact ⟨h1, h2, h3, fun hc => absurd hc (by simp [hok])⟩

theorem LifecycleInv_mayRaise (k : Nat) (b : Bool) (e : PyExc)
    (r : RunState) (h : LifecycleInv k r) :
    LifecycleInv k (mayRaise b e r) := by
  obtain ⟨h1, h2, h3, h4⟩ := h
  unfold mayRaise
  by_cases hok : r.ok <;> by_cases hb : b <;> simp [hok, hb]
  · exact ⟨h1, h2, h3, fun hc => by simp at hc⟩
  · exact ⟨h1, h2, h3, h4⟩
  · exact ⟨h1, h2, h3, h4⟩
  · exact ⟨h1, h2, h3, h4⟩

theorem LifecycleInv_withSession (k : Nat) (body : RunState → RunState)
    (hbody : ∀ rr, (body rr).st = rr.st ∧ (body rr).trace = rr.trace)
    (hk : k ≤ 1) (r : RunState) (h : LifecycleInv k r) :
    LifecycleInv k (withSession body r) := by
  obtain ⟨h1, h2, h3, h4⟩ := h
  unfold withSession
  by_cases hok : r.ok
  · rw [if_pos hok]
    have hres : r.st.residentModels = k := h4 hok
    obtain ⟨hs, ht⟩ := hbody (stepOp .sessionOpen
      (fun s => ⟨s.residentModels, true⟩) r)
    refine ⟨rfl, ?_, ?_, fun _ => ?_⟩
    · intro s hs'
      rcases List.mem_append.mp hs' with hs' | hs'
      · rw [ht] at hs'
        unfold stepOp at hs'
        rw [if_pos hok] at hs'
        rcases List.mem_append.mp hs' with hs' | hs'
        · exact h2 s hs'
        · simp at hs'
          simp [hs', hres, hk]
      · simp at hs'
        rw [hs']
        simp [hs]
        unfold stepOp
        rw [if_pos hok]
        simp [hres, hk]
    · simp [hs]
      unfold stepOp
      rw [if_pos hok]
      simp [hres, hk]
    · simp [hs]
      unfold stepOp
      rw [if_pos hok]
      simp [hres]
  · rw [if_neg hok]
    exact ⟨h1, h2, h3, fun hc => absurd hc (by simp [hok])⟩

theorem mayRaise_double_st_trace (b1 b2 : Bool) (e1 e2 : PyExc)
    (rr : RunState) :
    (mayRaise b2 e2 (mayRaise b1 e1 rr)).st = rr.st ∧
    (mayRaise b2 e2 (mayRaise b1 e1 rr)).trace = rr.trace := by
  obtain ⟨hs1, ht1⟩ := mayRaise_st_trace b1 e1 rr
  obtain ⟨hs2, ht2⟩ := mayRaise_st_trace b2 e2 (mayRaise b1 e1 rr)
  exact ⟨hs2.trans hs1, ht2.trans ht1⟩

theorem LifecycleInv_vg_config (f : VGFail) (r : RunState)
    (h : LifecycleInv 0 r) : LifecycleInv 0 (vg_config_lifecycle f r) := by
  unfold vg_config_lifecycle
  refine LifecycleInv_mayRaise 0 _ _ _
    (LifecycleInv_resetGraph 1 _
      (LifecycleInv_withSession 1 _
        (fun rr => mayRaise_double_st_trace _ _ _ _ rr) (by norm_num) _
        (LifecycleInv_mayRaise 1 _ _ _
          (LifecycleInv_createModel _
            (LifecycleInv_resetGraph 1 _
              (LifecycleInv_withSession 1 _
                (fun rr => mayRaise_double_st_trace _ _ _ _ rr)
                (by norm_num) _
                (LifecycleInv_createModel _ h)))))))

theorem LifecycleInv_initial : LifecycleInv 0 initialRunState := by
  refine ⟨rfl, ?_, by simp [initialRunState], fun _ => rfl⟩
  intro s hs
  simp [initialRunState] at hs
  simp [hs]

theorem LifecycleInv_vg_loop (fs : List VGFail) (r : RunState)
    (h : LifecycleInv 0 r) : LifecycleInv 0 (vg_loop fs r) := by
  induction fs generalizing r with
  | nil => exact h
  | cons f fs ih => exact ih _ (LifecycleInv_vg_config f r h)

theorem LifecycleInv_fix_gamma (f : FGFail) :
    LifecycleInv 0 (fix_gamma_lifecycle f) := by
  unfold fix_gamma_lifecycle
  refine LifecycleInv_resetGraph 1 _
    (LifecycleInv_withSession 1 _
      (fun rr => mayRaise_double_st_trace _ _ _ _ rr) (by norm_num) _
      (LifecycleInv_mayRaise 1 _ _ _
        (LifecycleInv_createModel _
          (LifecycleInv_resetGraph 1 _
            (LifecycleInv_withSession 1 _
              (fun rr => mayRaise_double_st_trace _ _ _ _ rr)
              (by norm_num) _
              (LifecycleInv_createModel _ LifecycleInv_initial))))))

theorem LifecycleInv_vary_gamma (idxsTraining : List ℤ)
    (gammasScaling : List ℚ) (fails : List VGFail) :
    LifecycleInv 0
      (vary_gamma_fix_bin_widths_lifecycle idxsTraining gammasScaling
        fails) := by
  unfold vary_gamma_fix_bin_widths_lifecycle
  exact LifecycleInv_vg_loop _ _
    (LifecycleInv_mayRaise 0 _ _ _ LifecycleInv_initial)

/-! ### Claim C2: model session release -/

/-- **C2, counterexample**: in `fix_gamma`, when an exception is raised
inside the per-configuration decode loop (quantization, rate computation,
decode or visualization, lines 166-206), the run aborts with the decoder
model still resident in the default graph: `tf.reset_default_graph()`
(line 209) is a plain statement after the `with` block and never runs on
the exception path, so the teardown of all resident computation state does
NOT run on every exit path.  Only the encoder-phase reset (line 144) ever
executed.  The session itself was closed by the context manager. -/
theorem fix_gamma_release_counterexample :
    (fix_gamma_lifecycle ⟨false, false, false, false, true⟩).ok = false ∧
    (fix_gamma_lifecycle ⟨false, false, false, false, true⟩).st.residentModels
      = 1 ∧
    (fix_gamma_lifecycle ⟨false, false, false, false, true⟩).st.sessionLive
      = false ∧
    (fix_gamma_lifecycle ⟨false, false, false, false, true⟩).ops.count
      TFOp.graphReset = 1 := by
  decide

/-- **C2, amended**: the session close runs on every exit path (the `with`
context manager), at most one model is ever resident in the default graph
(on every run, failing or not), and on an exception-free run both sweeps
tear all resident state down before each next acquire and end with an
empty graph; but the graph teardown itself is only guaranteed on the
exception-free path (see the counterexample). -/
theorem session_lifecycle_amended :
    (∀ f : FGFail,
      (fix_gamma_lifecycle f).st.sessionLive = false ∧
      ((fix_gamma_lifecycle f).trace.all
        fun s => decide (s.residentModels ≤ 1)) = true ∧
      ((fix_gamma_lifecycle f).ok = false ∨
        (fix_gamma_lifecycle f).st.residentModels = 0)) ∧
    ((fix_gamma_lifecycle noFGFail).ok = true ∧
     (fix_gamma_lifecycle noFGFail).st.residentModels = 0 ∧
     (fix_gamma_lifecycle noFGFail).ops =
       [.createModel, .sessionOpen, .sessionClose, .graphReset,
        .createModel, .sessionOpen, .sessionClose, .graphReset]) ∧
    (∀ (idxsTraining : List ℤ) (gammasScaling : List ℚ)
        (fails : List VGFail),
      (vary_gamma_fix_bin_widths_lifecycle idxsTraining gammasScaling
          fails).st.sessionLive = false ∧
      ((vary_gamma_fix_bin_widths_lifecycle idxsTraining gammasScaling
          fails).trace.all fun s => decide (s.residentModels ≤ 1)) = true ∧
      ((vary_gamma_fix_bin_widths_lifecycle idxsTraining gammasScaling
          fails).ok = false ∨
        (vary_gamma_fix_bin_widths_lifecycle idxsTraining gammasScaling
          fails).st.residentModels = 0)) := by
  refine ⟨fun f => ?_, by decide, fun idxs gammas fails => ?_⟩
  · obtain ⟨h1, h2, _h3, h4⟩ := LifecycleInv_fix_gamma f
    refine ⟨h1, List.all_eq_true.mpr fun s hs => decide_eq_true (h2 s hs), ?_⟩
    by_cases hok : (fix_gamma_lifecycle f).ok
    · exact Or.inr (h4 hok)
    · exact Or.inl (Bool.eq_false_iff.mpr hok)
  · obtain ⟨h1, h2, _h3, h4⟩ := LifecycleInv_vary_gamma idxs gammas fails
    refine ⟨h1, List.all_eq_true.mpr fun s hs => decide_eq_true (h2 s hs), ?_⟩
    by_cases hok :
      (vary_gamma_fix_bin_widths_lifecycle idxs gammas fails).ok
    · exact Or.inr (h4 hok)
    · exact Or.inl (Bool.eq_false_iff.mpr hok)

/-! ### Claim C4: Mode-B length mismatch -/

theorem vg_config_not_ok (f : VGFail) (r : RunState) (h : r.ok = false) :
    vg_config_lifecycle f r = r := by
  simp [vg_config_lifecycle, createModelStep, resetGraphStep, stepOp_not_ok,
    mayRaise_not_ok, withSession_not_ok, h]

theorem vg_loop_not_ok (fs : List VGFail) (r : RunState)
    (h : r.ok = false) : vg_loop fs r = r := by
  induction fs with
  | nil => rfl
  | cons f fs ih => rw [vg_loop, vg_config_not_ok f r h, ih]

/-- **C4**: when the number of training indices (checkpoints) differs from
the number of scaling coefficients, `vary_gamma_fix_bin_widths` fails at
the size assertion of line 288 — the configuration-count-mismatch error —
before anything else happens: no lifecycle operation has executed, so no
model was loaded, no graph node was created and no session was opened. -/
theorem vary_gamma_mode_b_mismatch (idxsTraining : List ℤ)
    (gammasScaling : List ℚ) (fails : List VGFail)
    (h : idxsTraining.length ≠ gammasScaling.length) :
    (vary_gamma_fix_bin_widths_lifecycle idxsTraining gammasScaling
      fails).exc = some .assertMismatch ∧
    (vary_gamma_fix_bin_widths_lifecycle idxsTraining gammasScaling
      fails).ok = false ∧
    (vary_gamma_fix_bin_widths_lifecycle idxsTraining gammasScaling
      fails).ops = [] ∧
    (vary_gamma_fix_bin_widths_lifecycle idxsTraining gammasScaling
      fails).st.residentModels = 0 := by
  unfold vary_gamma_fix_bin_widths_lifecycle
  have hd : decide (idxsTraining.length ≠ gammasScaling.length) = true :=
    decide_eq_true h
  rw [hd]
  have hstep : mayRaise true .assertMismatch initialRunState =
      ⟨⟨0, false⟩, [⟨0, false⟩], [], some .assertMismatch, false⟩ := by
    simp [mayRaise, initialRunState]
  rw [hstep, vg_loop_not_ok _ _ rfl]
  exact ⟨rfl, rfl, rfl, rfl⟩

theorem vary_gamma_mode_b_mismatch_witness :
    ([10, 10, 10] : List ℤ).length ≠ ([10000, 12000] : List ℚ).length ∧
    ((vary_gamma_fix_bin_widths_lifecycle [10, 10, 10] [10000, 12000]
        []).exc = some .assertMismatch ∧
     (vary_gamma_fix_bin_widths_lifecycle [10, 10, 10] [10000, 12000]
        []).ok = false ∧
     (vary_gamma_fix_bin_widths_lifecycle [10, 10, 10] [10000, 12000]
        []).ops = [] ∧
     (vary_gamma_fix_bin_widths_lifecycle [10, 10, 10] [10000, 12000]
        []).st.residentModels = 0) :=
  ⟨by decide,
   vary_gamma_mode_b_mismatch [10, 10, 10] [10000, 12000] [] (by decide)⟩

/-! ### Sweep-loop lemmas -/

theorem AgreeAt.rfl' (i' j' : Nat) (m : Matrices) : AgreeAt i' j' m m :=
  ⟨rfl, rfl, rfl, rfl⟩

theorem AgreeAt.trans' (i' j' : Nat) (m₁ m₂ m₃ : Matrices)
    (h1 : AgreeAt i' j' m₁ m₂) (h2 : AgreeAt i' j' m₂ m₃) :
    AgreeAt i' j' m₁ m₃ :=
  ⟨h2.1.trans h1.1, h2.2.1.trans h1.2.1, h2.2.2.1.trans h1.2.2.1,
   h2.2.2.2.trans h1.2.2.2⟩

theorem writeRate_untouched (m : Matrices) (i j : Nat) (v : ℚ) (i' j' : Nat)
    (h : ¬(i' = i ∧ j' = j)) : AgreeAt i' j' m (writeRate m i j v) := by
  unfold writeRate AgreeAt
  exact ⟨if_neg h, rfl, if_neg h, rfl⟩

theorem writePsnr_untouched (m : Matrices) (i j : Nat) (v : ℚ) (i' j' : Nat)
    (h : ¬(i' = i ∧ j' = j)) : AgreeAt i' j' m (writePsnr m i j v) := by
  unfold writePsnr AgreeAt
  exact ⟨rfl, if_neg h, rfl, if_neg h⟩

theorem runImages_untouched (o : SweepOracle) (i : Nat) (js : List Nat)
    (m : Matrices) (i' j' : Nat) (h : i' ≠ i ∨ j' ∉ js) :
    AgreeAt i' j' m (finalState (runImages o i js m)) := by
  induction js generalizing m with
  | nil => exact AgreeAt.rfl' i' j' m
  | cons j js ih =>
    have hne : ¬(i' = i ∧ j' = j) := by
      rcases h with h | h
      · exact fun hc => h hc.1
      · exact fun hc => h (hc.2 ▸ List.mem_cons_self j js)
    have h' : i' ≠ i ∨ j' ∉ js := by
      rcases h with h | h
      · exact Or.inl h
      · exact Or.inr fun hc => h (List.mem_cons_of_mem j hc)
    simp only [runImages]
    cases hrv : o.rateVal i j with
    | none => exact AgreeAt.rfl' i' j' m
    | some rv =>
      cases hpv : o.psnrVal i j with
      | none => exact writeRate_untouched m i j rv i' j' hne
      | some pv =>
        have hw : AgreeAt i' j' m (writePsnr (writeRate m i j rv) i j pv) :=
          AgreeAt.trans' i' j' _ _ _ (writeRate_untouched m i j rv i' j' hne)
            (writePsnr_untouched _ i j pv i' j' hne)
        by_cases hv : o.visOk i j
        · simp only [hv, if_true]
          exact AgreeAt.trans' i' j' _ _ _ hw (ih _ h')
        · simp only [hv, if_false]
          exact hw

theorem writeRate_mono (m : Matrices) (i j : Nat) (v : ℚ) (i' j' : Nat) :
    m.rateWrites i' j' ≤ (writeRate m i j v).rateWrites i' j' ∧
    m.psnrWrites i' j' ≤ (writeRate m i j v).psnrWrites i' j' := by
  unfold writeRate
  constructor
  · dsimp only
    split <;> omega
  · exact le_refl _

theorem writePsnr_mono (m : Matrices) (i j : Nat) (v : ℚ) (i' j' : Nat) :
    m.rateWrites i' j' ≤ (writePsnr m i j v).rateWrites i' j' ∧
    m.psnrWrites i' j' ≤ (writePsnr m i j v).psnrWrites i' j' := by
  unfold writePsnr
  constructor
  · exact le_refl _
  · dsimp only
    split <;> omega

theorem runImages_mono (o : SweepOracle) (i : Nat) (js : List Nat)
    (m : Matrices) (i' j' : Nat) :
    m.rateWrites i' j' ≤
      (finalState (runImages o i js m)).rateWrites i' j' ∧
    m.psnrWrites i' j' ≤
      (finalState (runImages o i js m)).psnrWrites i' j' := by
  induction js generalizing m with
  | nil => exact ⟨le_refl _, le_refl _⟩
  | cons j js ih =>
    simp only [runImages]
    cases hrv : o.rateVal i j with
    | none => exact ⟨le_refl _, le_refl _⟩
    | some rv =>
      cases hpv : o.psnrVal i j with
      | none => exact writeRate_mono m i j rv i' j'
      | some pv =>
        have hw1 := writeRate_mono m i j rv i' j'
        have hw2 := writePsnr_mono (writeRate m i j rv) i j pv i' j'
        by_cases hv : o.visOk i j
        · simp only [hv, if_true]
          have h3 := ih (writePsnr (writeRate m i j rv) i j pv)
          exact ⟨le_trans (le_trans hw1.1 hw2.1) h3.1,
                 le_trans (le_trans hw1.2 hw2.2) h3.2⟩
        · simp only [hv, if_false]
          exact ⟨le_trans hw1.1 hw2.1, le_trans hw1.2 hw2.2⟩

theorem runImages_ok_iff (o : SweepOracle) (i : Nat) (js : List Nat)
    (m : Matrices) :
    (∃ m', runImages o i js m = .ok m') ↔
      ∀ j ∈ js, (o.rateVal i j).isSome ∧ (o.psnrVal i j).isSome ∧
        o.visOk i j = true := by
  induction js generalizing m with
  | nil =>
    simp [runImages]
  | cons j js ih =>
    simp only [runImages]
    cases hrv : o.rateVal i j with
    | none =>
      simp [hrv]
    | some rv =>
      cases hpv : o.psnrVal i j with
      | none =>
        simp [hpv]
      | some pv =>
        by_cases hv : o.visOk i j
        · simp only [hv, if_true]
          rw [ih]
          constructor
          · intro h
            intro j' hj'
            rcases List.mem_cons.mp hj' with hj' | hj'
            · subst hj'
              exact ⟨by simp [hrv], by simp [hpv], hv⟩
            · exact h j' hj'
          · intro h j' hj'
            exact h j' (List.mem_cons_of_mem j hj')
        · simp only [hv, if_false]
          constructor
          · intro ⟨m', hm'⟩
            exact absurd hm' (by simp)
          · intro h
            exact absurd (h j (List.mem_cons_self j js)).2.2 (by simp [hv])

theorem writeRate_hit (m : Matrices) (i j : Nat) (v : ℚ) :
    (writeRate m i j v).rate i j = v ∧
    (writeRate m i j v).rateWrites i j = m.rateWrites i j + 1 := by
  unfold writeRate
  exact ⟨if_pos ⟨rfl, rfl⟩, if_pos ⟨rfl, rfl⟩⟩

theorem writePsnr_hit (m : Matrices) (i j : Nat) (v : ℚ) :
    (writePsnr m i j v).psnr i j = v ∧
    (writePsnr m i j v).psnrWrites i j = m.psnrWrites i j + 1 := by
  unfold writePsnr
  exact ⟨if_pos ⟨rfl, rfl⟩, if_pos ⟨rfl, rfl⟩⟩


theorem runImages_written (o : SweepOracle) (i : Nat) (js : List Nat)
    (m m' : Matrices) (h : runImages o i js m = .ok m') :
    ∀ j ∈ js, 1 ≤ m'.rateWrites i j ∧ 1 ≤ m'.psnrWrites i j := by
  induction js generalizing m with
  | nil => intro j hj; exact absurd hj (List.not_mem_nil j)
  | cons j js ih =>
    simp only [runImages] at h
    cases hrv : o.rateVal i j with
    | none => rw [hrv] at h; exact absurd h (by simp)
    | some rv =>
      rw [hrv] at h
      cases hpv : o.psnrVal i j with
      | none => rw [hpv] at h; exact absurd h (by simp)
      | some pv =>
        rw [hpv] at h
        dsimp only at h
        by_cases hv : o.visOk i j
        · rw [if_pos hv] at h
          intro j'' hj''
          rcases List.mem_cons.mp hj'' with hj'' | hj''
          · subst hj''
            have hm2r :
                1 ≤ (writePsnr (writeRate m i j'' rv) i j'' pv).rateWrites
                  i j'' := by
              have h1 := (writePsnr_mono (writeRate m i j'' rv) i j'' pv
                i j'').1
              have h2 := (writeRate_hit m i j'' rv).2
              omega
            have hm2p :
                1 ≤ (writePsnr (writeRate m i j'' rv) i j'' pv).psnrWrites
                  i j'' := by
              have h2 := (writePsnr_hit (writeRate m i j'' rv) i j'' pv).2
              omega
            have hmono := runImages_mono o i js
              (writePsnr (writeRate m i j'' rv) i j'' pv) i j''
            rw [h] at hmono
            exact ⟨le_trans hm2r hmono.1, le_trans hm2p hmono.2⟩
          · exact ih _ h j'' hj''
        · rw [if_neg hv] at h
          exact absurd h (by simp)

theorem writeRate_bound (m : Matrices) (i j : Nat) (rv : ℚ) (i' j' : Nat) :
    (writeRate m i j rv).rateWrites i' j' ≤
      m.rateWrites i' j' + (if i' = i ∧ j' = j then 1 else 0) ∧
    (writeRate m i j rv).psnrWrites i' j' ≤
      m.psnrWrites i' j' + (if i' = i ∧ j' = j then 1 else 0) := by
  unfold writeRate
  by_cases hc : i' = i ∧ j' = j <;> simp [hc]

theorem image_step_bound (m : Matrices) (i j : Nat) (rv pv : ℚ)
    (i' j' : Nat) :
    (writePsnr (writeRate m i j rv) i j pv).rateWrites i' j' ≤
      m.rateWrites i' j' + (if i' = i ∧ j' = j then 1 else 0) ∧
    (writePsnr (writeRate m i j rv) i j pv).psnrWrites i' j' ≤
      m.psnrWrites i' j' + (if i' = i ∧ j' = j then 1 else 0) := by
  unfold writeRate writePsnr
  by_cases hc : i' = i ∧ j' = j <;> simp [hc]

theorem runImages_bound (o : SweepOracle) (i : Nat) (js : List Nat)
    (m : Matrices) (i' j' : Nat) (hnd : js.Nodup) :
    (finalState (runImages o i js m)).rateWrites i' j' ≤
      m.rateWrites i' j' + (if i' = i ∧ j' ∈ js then 1 else 0) ∧
    (finalState (runImages o i js m)).psnrWrites i' j' ≤
      m.psnrWrites i' j' + (if i' = i ∧ j' ∈ js then 1 else 0) := by
  induction js generalizing m with
  | nil => simp [runImages, finalState]
  | cons j js ih =>
    have hnd' : js.Nodup := (List.nodup_cons.mp hnd).2
    have hjnot : j ∉ js := (List.nodup_cons.mp hnd).1
    have hmem : (i' = i ∧ j' ∈ j :: js) ↔
        ((i' = i ∧ j' = j) ∨ (i' = i ∧ j' ∈ js)) := by
      constructor
      · rintro ⟨h1, h2⟩
        rcases List.mem_cons.mp h2 with h2 | h2
        · exact Or.inl ⟨h1, h2⟩
        · exact Or.inr ⟨h1, h2⟩
      · rintro (⟨h1, h2⟩ | ⟨h1, h2⟩)
        · exact ⟨h1, h2 ▸ List.mem_cons_self j js⟩
        · exact ⟨h1, List.mem_cons_of_mem j h2⟩
    have hboth : ¬((i' = i ∧ j' = j) ∧ (i' = i ∧ j' ∈ js)) := by
      rintro ⟨⟨_, h2⟩, ⟨_, h4⟩⟩
      exact hjnot (h2 ▸ h4)
    have hsum : (if i' = i ∧ j' = j then (1:Nat) else 0) +
        (if i' = i ∧ j' ∈ js then 1 else 0) ≤
        (if i' = i ∧ j' ∈ j :: js then 1 else 0) := by
      by_cases h1 : i' = i ∧ j' = j <;> by_cases h2 : i' = i ∧ j' ∈ js
      · exact absurd ⟨h1, h2⟩ hboth
      · rw [if_pos h1, if_neg h2, if_pos (hmem.mpr (Or.inl h1))]
      · rw [if_neg h1, if_pos h2, if_pos (hmem.mpr (Or.inr h2))]
      · rw [if_neg h1, if_neg h2]
        split <;> omega
    simp only [runImages]
    cases hrv : o.rateVal i j with
    | none =>
      constructor <;> (dsimp only [finalState]; omega)
    | some rv =>
      cases hpv : o.psnrVal i j with
      | none =>
        have hb := writeRate_bound m i j rv i' j'
        constructor <;> (dsimp only [finalState]; omega)
      | some pv =>
        have hb := image_step_bound m i j rv pv i' j'
        dsimp only
        by_cases hv : o.visOk i j
        · rw [if_pos hv]
          have hrec := ih (writePsnr (writeRate m i j rv) i j pv) hnd'
          constructor <;> omega
        · rw [if_neg hv]
          constructor <;> (dsimp only [finalState]; omega)

theorem runConfigs_untouched (o : SweepOracle) (nbImages : Nat)
    (is : List Nat) (m : Matrices) (i' j' : Nat) (h : i' ∉ is) :
    AgreeAt i' j' m (finalState (runConfigs o nbImages is m)) := by
  induction is generalizing m with
  | nil => exact AgreeAt.rfl' i' j' m
  | cons i is ih =>
    have hne : i' ≠ i := fun hc => h (hc ▸ List.mem_cons_self i is)
    have h' : i' ∉ is := fun hc => h (List.mem_cons_of_mem i hc)
    simp only [runConfigs]
    by_cases hp : o.configPre i
    · rw [if_pos hp]
      have hrow := runImages_untouched o i (List.range nbImages) m i' j'
        (Or.inl hne)
      cases hr : runImages o i (List.range nbImages) m with
      | ok m₁ =>
        rw [hr] at hrow
        dsimp only [finalState] at hrow ⊢
        exact AgreeAt.trans' i' j' _ _ _ hrow (ih m₁ h')
      | error m₁ =>
        rw [hr] at hrow
        exact hrow
    · rw [if_neg hp]
      exact AgreeAt.rfl' i' j' m

theorem runConfigs_mono (o : SweepOracle) (nbImages : Nat) (is : List Nat)
    (m : Matrices) (i' j' : Nat) :
    m.rateWrites i' j' ≤
      (finalState (runConfigs o nbImages is m)).rateWrites i' j' ∧
    m.psnrWrites i' j' ≤
      (finalState (runConfigs o nbImages is m)).psnrWrites i' j' := by
  induction is generalizing m with
  | nil => exact ⟨le_refl _, le_refl _⟩
  | cons i is ih =>
    simp only [runConfigs]
    by_cases hp : o.configPre i
    · rw [if_pos hp]
      have hrow := runImages_mono o i (List.range nbImages) m i' j'
      cases hr : runImages o i (List.range nbImages) m with
      | ok m₁ =>
        rw [hr] at hrow
        have h2 := ih m₁
        exact ⟨le_trans hrow.1 h2.1, le_trans hrow.2 h2.2⟩
      | error m₁ =>
        rw [hr] at hrow
        exact hrow
    · rw [if_neg hp]
      exact ⟨le_refl _, le_refl _⟩

theorem runConfigs_complete (o : SweepOracle) (nbImages : Nat)
    (is : List Nat) (m : Matrices)
    (h : ∀ i ∈ is, configCompletes o nbImages i) :
    ∃ m', runConfigs o nbImages is m = .ok m' ∧
      ∀ i ∈ is, ∀ j < nbImages,
        1 ≤ m'.rateWrites i j ∧ 1 ≤ m'.psnrWrites i j := by
  induction is generalizing m with
  | nil =>
    refine ⟨m, rfl, ?_⟩
    intro i hi
    exact absurd hi (List.not_mem_nil i)
  | cons i is ih =>
    obtain ⟨hpre, hjs⟩ := h i (List.mem_cons_self i is)
    have hok : ∃ m₁, runImages o i (List.range nbImages) m = .ok m₁ := by
      rw [runImages_ok_iff]
      intro j hj
      exact hjs j (List.mem_range.mp hj)
    obtain ⟨m₁, hm₁⟩ := hok
    obtain ⟨m', hm', hwr⟩ := ih m₁
      (fun i'' hi'' => h i'' (List.mem_cons_of_mem i hi''))
    refine ⟨m', ?_, ?_⟩
    · simp only [runConfigs]
      rw [if_pos hpre, hm₁]
      exact hm'
    · intro i'' hi'' j hj
      rcases List.mem_cons.mp hi'' with hi'' | hi''
      · subst hi''
        have hrow := runImages_written o i'' (List.range nbImages) m m₁ hm₁
          j (List.mem_range.mpr hj)
        have hmono := runConfigs_mono o nbImages is m₁ i'' j
        rw [hm'] at hmono
        dsimp only [finalState] at hmono
        exact ⟨le_trans hrow.1 hmono.1, le_trans hrow.2 hmono.2⟩
      · exact hwr i'' hi'' j hj

theorem runConfigs_bound (o : SweepOracle) (nbImages : Nat) (is : List Nat)
    (m : Matrices) (i' j' : Nat) (hnd : is.Nodup) :
    (finalState (runConfigs o nbImages is m)).rateWrites i' j' ≤
      m.rateWrites i' j' + 1 ∧
    (finalState (runConfigs o nbImages is m)).psnrWrites i' j' ≤
      m.psnrWrites i' j' + 1 := by
  induction is generalizing m with
  | nil => simp [runConfigs, finalState]
  | cons i is ih =>
    have hnd' : is.Nodup := (List.nodup_cons.mp hnd).2
    have hinot : i ∉ is := (List.nodup_cons.mp hnd).1
    simp only [runConfigs]
    by_cases hp : o.configPre i
    · rw [if_pos hp]
      have hrow := runImages_bound o i (List.range nbImages) m i' j'
        (List.nodup_range nbImages)
      cases hr : runImages o i (List.range nbImages) m with
      | ok m₁ =>
        rw [hr] at hrow
        dsimp only [finalState] at hrow ⊢
        by_cases hrowhit : i' = i ∧ j' ∈ List.range nbImages
        · -- configuration `i` may have written cell (i', j'); later
          -- configurations never touch row i again (`i ∉ is`)
          have hlater := runConfigs_untouched o nbImages is m₁ i' j'
            (hrowhit.1 ▸ hinot)
          rw [if_pos hrowhit] at hrow
          have e1 := hlater.2.2.1
          have e2 := hlater.2.2.2
          dsimp only [finalState] at e1 e2
          constructor <;> omega
        · rw [if_neg hrowhit] at hrow
          have h2 := ih m₁ hnd'
          dsimp only [finalState] at h2
          constructor <;> omega
      | error m₁ =>
        rw [hr] at hrow
        dsimp only [finalState] at hrow ⊢
        constructor <;> (split at hrow <;> omega)
    · rw [if_neg hp]
      dsimp only [finalState]
      constructor <;> omega

theorem runConfigs_append (o : SweepOracle) (nbImages : Nat)
    (is₁ is₂ : List Nat) (m : Matrices) :
    runConfigs o nbImages (is₁ ++ is₂) m =
      match runConfigs o nbImages is₁ m with
      | .ok m₁ => runConfigs o nbImages is₂ m₁
      | .error m₁ => .error m₁ := by
  induction is₁ generalizing m with
  | nil => rfl
  | cons i is ih =>
    show runConfigs o nbImages (i :: (is ++ is₂)) m = _
    simp only [runConfigs]
    by_cases hp : o.configPre i
    · rw [if_pos hp, if_pos hp]
      cases hr : runImages o i (List.range nbImages) m with
      | ok m₁ => exact ih m₁
      | error m₁ => rfl
    · rw [if_neg hp, if_neg hp]

theorem UnwrittenZero_writeRate (m : Matrices) (i j : Nat) (v : ℚ)
    (h : UnwrittenZero m) : UnwrittenZero (writeRate m i j v) := by
  intro i'' j''
  obtain ⟨h1, h2⟩ := h i'' j''
  unfold writeRate
  dsimp only
  constructor
  · intro hw
    split at hw
    · omega
    · split
      · omega
      · exact h1 hw
  · exact h2

theorem UnwrittenZero_writePsnr (m : Matrices) (i j : Nat) (v : ℚ)
    (h : UnwrittenZero m) : UnwrittenZero (writePsnr m i j v) := by
  intro i'' j''
  obtain ⟨h1, h2⟩ := h i'' j''
  unfold writePsnr
  dsimp only
  constructor
  · exact h1
  · intro hw
    split at hw
    · omega
    · split
      · omega
      · exact h2 hw

theorem UnwrittenZero_runImages (o : SweepOracle) (i : Nat) (js : List Nat)
    (m : Matrices) (h : UnwrittenZero m) :
    UnwrittenZero (finalState (runImages o i js m)) := by
  induction js generalizing m with
  | nil => exact h
  | cons j js ih =>
    simp only [runImages]
    cases o.rateVal i j with
    | none => exact h
    | some rv =>
      cases o.psnrVal i j with
      | none => exact UnwrittenZero_writeRate m i j rv h
      | some pv =>
        have h2 := UnwrittenZero_writePsnr _ i j pv
          (UnwrittenZero_writeRate m i j rv h)
        dsimp only
        by_cases hv : o.visOk i j
        · rw [if_pos hv]
          exact ih _ h2
        · rw [if_neg hv]
          exact h2

theorem UnwrittenZero_runConfigs (o : SweepOracle) (nbImages : Nat)
    (is : List Nat) (m : Matrices) (h : UnwrittenZero m) :
    UnwrittenZero (finalState (runConfigs o nbImages is m)) := by
  induction is generalizing m with
  | nil => exact h
  | cons i is ih =>
    simp only [runConfigs]
    by_cases hp : o.configPre i
    · rw [if_pos hp]
      have h1 := UnwrittenZero_runImages o i (List.range nbImages) m h
      cases hr : runImages o i (List.range nbImages) m with
      | ok m₁ =>
        rw [hr] at h1
        exact ih m₁ h1
      | error m₁ =>
        rw [hr] at h1
        exact h1
    · rw [if_neg hp]
      exact h

theorem UnwrittenZero_init : UnwrittenZero initMatrices :=
  fun _ _ => ⟨fun _ => rfl, fun _ => rfl⟩

theorem runConfigs_untouched_col (o : SweepOracle) (nbImages : Nat)
    (is : List Nat) (m : Matrices) (i' j' : Nat)
    (h : j' ∉ List.range nbImages) :
    AgreeAt i' j' m (finalState (runConfigs o nbImages is m)) := by
  induction is generalizing m with
  | nil => exact AgreeAt.rfl' i' j' m
  | cons i is ih =>
    simp only [runConfigs]
    by_cases hp : o.configPre i
    · rw [if_pos hp]
      have hrow := runImages_untouched o i (List.range nbImages) m i' j'
        (Or.inr h)
      cases hr : runImages o i (List.range nbImages) m with
      | ok m₁ =>
        rw [hr] at hrow
        dsimp only [finalState] at hrow ⊢
        exact AgreeAt.trans' i' j' _ _ _ hrow (ih m₁)
      | error m₁ =>
        rw [hr] at hrow
        exact hrow
    · rw [if_neg hp]
      exact AgreeAt.rfl' i' j' m

/-! ### Claim C1: per-configuration atomicity -/

/-- **C1, counterexample**: one configuration, two images; the rate
computation succeeds for image 0 and raises for image 1.  The sweep aborts
while processing configuration 0, yet configuration 0's cells for image 0
(`rate[0,0]` and `psnr[0,0]`) HAVE been written — writes happen cell by
cell (lines 186-199), not transactionally per configuration, so a failing
configuration does not leave all of its cells unwritten. -/
theorem sweep_atomicity_counterexample :
    runFailed (sweepMatrices failingOracle 1 2) = true ∧
    (finalState (sweepMatrices failingOracle 1 2)).rateWrites 0 0 = 1 ∧
    (finalState (sweepMatrices failingOracle 1 2)).psnrWrites 0 0 = 1 ∧
    (finalState (sweepMatrices failingOracle 1 2)).rate 0 0 = 1 ∧
    (finalState (sweepMatrices failingOracle 1 2)).rateWrites 0 1 = 0 := by
  decide

/-- **C1, amended**: if configurations `0..i` all run to completion, every
cell of row `i` is written in the final matrices (whatever happens to later
configurations); and processing configuration `i` never touches a cell of
any other configuration, so cells of configurations `< i` are unaffected by
a failure in configuration `i`.  But a configuration that fails midway
leaves the cells it wrote before the failing step in place (see the
counterexample): atomicity holds per cell, not per configuration. -/
theorem sweep_atomicity_amended (o : SweepOracle) (nbPoints nbImages i : Nat)
    (hi : i < nbPoints) (hall : ∀ i' ≤ i, configCompletes o nbImages i') :
    (∀ j < nbImages,
      1 ≤ (finalState (sweepMatrices o nbPoints nbImages)).rateWrites i j ∧
      1 ≤ (finalState (sweepMatrices o nbPoints nbImages)).psnrWrites i j) ∧
    (∀ (js : List Nat) (m : Matrices) (i' j' : Nat), i' ≠ i →
      AgreeAt i' j' m (finalState (runImages o i js m))) := by
  constructor
  · intro j hj
    have hsplit : nbPoints = (i + 1) + (nbPoints - (i + 1)) := by omega
    have hr : List.range nbPoints =
        List.range (i + 1) ++
          (List.range (nbPoints - (i + 1))).map (fun x => (i + 1) + x) := by
      conv_lhs => rw [hsplit]
      rw [List.range_add]
    obtain ⟨m₁, hm₁, hwr⟩ := runConfigs_complete o nbImages
      (List.range (i + 1)) initMatrices
      (fun i' hi' => hall i' (Nat.lt_succ_iff.mp (List.mem_range.mp hi')))
    unfold sweepMatrices
    rw [hr, runConfigs_append, hm₁]
    dsimp only
    have hm := runConfigs_mono o nbImages
      ((List.range (nbPoints - (i + 1))).map (fun x => (i + 1) + x)) m₁ i j
    have hw := hwr i (List.mem_range.mpr (Nat.lt_succ_self i)) j hj
    exact ⟨le_trans hw.1 hm.1, le_trans hw.2 hm.2⟩
  · intro js m i' j' hne
    exact runImages_untouched o i js m i' j' (Or.inl hne)

theorem sweep_atomicity_amended_witness :
    ((0:Nat) < 2 ∧ ∀ i' ≤ 0, configCompletes allOkOracle 1 i') ∧
    ((∀ j < 1,
      1 ≤ (finalState (sweepMatrices allOkOracle 2 1)).rateWrites 0 j ∧
      1 ≤ (finalState (sweepMatrices allOkOracle 2 1)).psnrWrites 0 j) ∧
    (∀ (js : List Nat) (m : Matrices) (i' j' : Nat), i' ≠ 0 →
      AgreeAt i' j' m (finalState (runImages allOkOracle 0 js m)))) :=
  ⟨by decide,
   sweep_atomicity_amended allOkOracle 2 1 0 (by decide) (by decide)⟩

/-! ### Claim C3: duplicate cell writes -/

/-- **C3, counterexample**: `rate[i, j] = v` is a plain numpy assignment
(lines 192/194/345): recording a second value into the already-written
cell `(0, 0)` does not fail with any error — `writeRate` is a total
function — and the cell afterwards holds the second value `7`, not the
first value `5`.  There is no `AggregationConflictError` anywhere in the
code, and the first recorded value IS affected. -/
theorem record_conflict_counterexample :
    (writeRate (writeRate initMatrices 0 0 5) 0 0 7).rateWrites 0 0 = 2 ∧
    (writeRate (writeRate initMatrices 0 0 5) 0 0 7).rate 0 0 = 7 ∧
    ¬(writeRate (writeRate initMatrices 0 0 5) 0 0 7).rate 0 0 = 5 := by
  decide

/-- **C3, amended**: recording into an already-written cell never fails —
the assignment silently overwrites the earlier value (for both matrices);
the sweeps themselves, however, write every cell at most once (each
`(i, j)` pair is visited exactly once by the two nested loops), so no
duplicate write ever occurs in a sweep run. -/
theorem record_overwrite_amended (m : Matrices) (i j : Nat) (a b : ℚ)
    (o : SweepOracle) (nbPoints nbImages : Nat) :
    (writeRate (writeRate m i j a) i j b).rate i j = b ∧
    (writePsnr (writePsnr m i j a) i j b).psnr i j = b ∧
    (finalState (sweepMatrices o nbPoints nbImages)).rateWrites i j ≤ 1 ∧
    (finalState (sweepMatrices o nbPoints nbImages)).psnrWrites i j ≤ 1 := by
  have h := runConfigs_bound o nbImages (List.range nbPoints) initMatrices
    i j (List.nodup_range nbPoints)
  exact ⟨(writeRate_hit _ i j b).1, (writePsnr_hit _ i j b).1, h.1, h.2⟩

/-! ### Claim C10: zero-initialised result matrices -/

/-- **C10**: both sweep functions allocate the rate and PSNR matrices as
all-zero arrays of shape `(nb_points, nb_images)` before evaluating any
configuration (lines 109-110 and 290-291), and a cell the sweep has not
written still reads as the value `0` — there is no NaN or other sentinel.
Cells outside the allocated shape are never touched by a sweep. -/
theorem matrices_zeros_init (o : SweepOracle) (nbPoints nbImages i j : Nat) :
    initMatrices.rate i j = 0 ∧ initMatrices.psnr i j = 0 ∧
    initMatrices.rateWrites i j = 0 ∧ initMatrices.psnrWrites i j = 0 ∧
    ((finalState (sweepMatrices o nbPoints nbImages)).rateWrites i j ≠ 0 ∨
      (finalState (sweepMatrices o nbPoints nbImages)).rate i j = 0) ∧
    ((finalState (sweepMatrices o nbPoints nbImages)).psnrWrites i j ≠ 0 ∨
      (finalState (sweepMatrices o nbPoints nbImages)).psnr i j = 0) ∧
    ((i < nbPoints ∧ j < nbImages) ∨
      ((finalState (sweepMatrices o nbPoints nbImages)).rateWrites i j = 0 ∧
       (finalState (sweepMatrices o nbPoints nbImages)).psnrWrites i j = 0 ∧
       (finalState (sweepMatrices o nbPoints nbImages)).rate i j = 0 ∧
       (finalState (sweepMatrices o nbPoints nbImages)).psnr i j = 0)) := by
  have hz := UnwrittenZero_runConfigs o nbImages (List.range nbPoints)
    initMatrices UnwrittenZero_init i j
  refine ⟨rfl, rfl, rfl, rfl, ?_, ?_, ?_⟩
  · by_cases hw : (finalState (sweepMatrices o nbPoints nbImages)).rateWrites
        i j = 0
    · exact Or.inr (hz.1 hw)
    · exact Or.inl hw
  · by_cases hw : (finalState (sweepMatrices o nbPoints nbImages)).psnrWrites
        i j = 0
    · exact Or.inr (hz.2 hw)
    · exact Or.inl hw
  · by_cases hip : i < nbPoints ∧ j < nbImages
    · exact Or.inl hip
    · right
      rcases not_and_or.mp hip with hip | hip
      · have ha := runConfigs_untouched o nbImages (List.range nbPoints)
          initMatrices i j (fun hc => hip (List.mem_range.mp hc))
        exact ⟨ha.2.2.1, ha.2.2.2, ha.1, ha.2.1⟩
      · have ha := runConfigs_untouched_col o nbImages (List.range nbPoints)
          initMatrices i j (fun hc => hip (List.mem_range.mp hc))
        exact ⟨ha.2.2.1, ha.2.2.2, ha.1, ha.2.1⟩

/-! ### Claim C8: one lossless-coder invocation per image -/

theorem fix_gamma_lossless_loop_spec
    (code : List ℚ → List ℚ → String → List Nat → Nat)
    (cq : Nat → List ℚ) (bwTest : List ℚ) (probPath : String)
    (excFlags : List Nat) (hIn wIn : Nat) (js : List Nat) :
    (fix_gamma_lossless_loop code cq bwTest probPath excFlags hIn wIn
        js).1 =
      js.map (fun j => ⟨cq j, bwTest, probPath, excFlags⟩) ∧
    (fix_gamma_lossless_loop code cq bwTest probPath excFlags hIn wIn
        js).2 =
      js.map (fun j =>
        (j, ((code (cq j) bwTest probPath excFlags : ℚ)) /
          ((hIn : ℚ) * (wIn : ℚ)))) := by
  induction js with
  | nil => exact ⟨rfl, rfl⟩
  | cons j js ih =>
    simp only [fix_gamma_lossless_loop, List.map_cons]
    exact ⟨by rw [ih.1], by rw [ih.2]⟩

/-- **C8**: in lossless mode the entropy-coding service is invoked exactly
once per image, in image order, never batched: the `j`-th call receives
image `j`'s centered quantized slice together with the test bin widths,
the probability table artifact and the exception flags (lines 186-191),
and the rate recorded for image `j` is the returned exact bit count
divided by `h_in * w_in` (line 192). -/
theorem lossless_once_per_image
    (code : List ℚ → List ℚ → String → List Nat → Nat)
    (cq : Nat → List ℚ) (bwTest : List ℚ) (probPath : String)
    (excFlags : List Nat) (hIn wIn nbImages : Nat) :
    (fix_gamma_lossless_loop code cq bwTest probPath excFlags hIn wIn
        (List.range nbImages)).1.length = nbImages ∧
    (fix_gamma_lossless_loop code cq bwTest probPath excFlags hIn wIn
        (List.range nbImages)).1 =
      (List.range nbImages).map
        (fun j => ⟨cq j, bwTest, probPath, excFlags⟩) ∧
    (fix_gamma_lossless_loop code cq bwTest probPath excFlags hIn wIn
        (List.range nbImages)).2 =
      (List.range nbImages).map (fun j =>
        (j, ((code (cq j) bwTest probPath excFlags : ℚ)) /
          ((hIn : ℚ) * (wIn : ℚ)))) := by
  obtain ⟨h1, h2⟩ := fix_gamma_lossless_loop_spec code cq bwTest probPath
    excFlags hIn wIn (List.range nbImages)
  refine ⟨?_, h1, h2⟩
  rw [h1, List.length_map, List.length_range]

/-! ### Claim C9: the distortion measure -/

theorem mse_self_zero (l : List ℤ) : mse l l = 0 := by
  have hsum : (List.zipWith (fun a b => ((a - b : ℤ) : ℚ) ^ 2) l l).sum
      = 0 := by
    induction l with
    | nil => rfl
    | cons a l ih =>
      simp only [List.zipWith_cons_cons, List.sum_cons, ih, sub_self]
      norm_num
  unfold mse
  rw [hsum, zero_div]

theorem cast_bt601_of_mem_range (v : ℤ) (h16 : 16 ≤ v) (h235 : v ≤ 235) :
    cast_bt601 (v : ℚ) = v := by
  unfold cast_bt601
  have hmin : min 235 (v : ℚ) = (v : ℚ) := by
    rw [min_eq_right]
    exact_mod_cast h235
  have hmax : max 16 (v : ℚ) = (v : ℚ) := by
    rw [max_eq_right]
    exact_mod_cast h16
  rw [hmin, hmax, roundAway_intCast]

/-- **C9, counterexample**: `measure(x, x)` is NOT always `+∞`.  The
reference sample `250` is a valid uint8 luminance sample, but the cast
clips the (bit-identical) reconstruction to `235`, so the mean squared
error is `225 ≠ 0` and the measure is finite. -/
theorem psnr_identity_counterexample :
    cast_bt601 250 = 235 ∧
    mse [250] (([250] : List ℚ).map cast_bt601) = 225 ∧
    measure_distortion [250] [250] ≠ ⊤ := by
  have hcast : cast_bt601 250 = 235 := by
    norm_num [cast_bt601, roundAway]
  have hmse : mse [250] (([250] : List ℚ).map cast_bt601) = 225 := by
    norm_num [mse, cast_bt601, roundAway]
  refine ⟨hcast, hmse, ?_⟩
  unfold measure_distortion psnr_2d
  rw [hmse, if_neg (by norm_num : (225 : ℚ) ≠ 0)]
  exact EReal.coe_ne_top _

/-- **C9, amended**: the distortion measure first casts the float
reconstruction to the reference's discrete format clipped to `[16, 235]`,
then returns `+∞` exactly when the mean squared error is zero and
otherwise `10·log10(peak^2 / mse)` where `peak = 255` is the full
representable uint8 range; `measure(x, x) = +∞` holds whenever the
reference's samples lie in the valid digital range `[16, 235]` (as BT.601
luminance images do) — a sample outside the clipped range makes the
identity measure finite instead (see the counterexample). -/
theorem distortion_measure_amended (ref : List ℤ) (reconF : List ℚ)
    (_hlen : reconF.length = ref.length)
    (hrange : ∀ v ∈ ref, 16 ≤ v ∧ v ≤ 235) :
    measure_distortion ref reconF = psnr_2d ref (reconF.map cast_bt601) ∧
    (mse ref (reconF.map cast_bt601) = 0 →
      measure_distortion ref reconF = ⊤) ∧
    (mse ref (reconF.map cast_bt601) ≠ 0 →
      measure_distortion ref reconF =
        ((10 * Real.logb 10 ((255 : ℝ) ^ 2 /
          (mse ref (reconF.map cast_bt601) : ℝ)) : ℝ) : EReal)) ∧
    measure_distortion ref (ref.map (fun (v : ℤ) => (v : ℚ))) = ⊤ := by
  refine ⟨rfl, ?_, ?_, ?_⟩
  · intro h
    unfold measure_distortion psnr_2d
    rw [if_pos h]
  · intro h
    unfold measure_distortion psnr_2d
    rw [if_neg h]
  · have hid : (ref.map (fun (v : ℤ) => (v : ℚ))).map cast_bt601 = ref := by
      rw [List.map_map]
      calc ref.map (cast_bt601 ∘ fun (v : ℤ) => (v : ℚ))
          = ref.map id := by
            apply List.map_congr_left
            intro v hv
            obtain ⟨h16, h235⟩ := hrange v hv
            exact cast_bt601_of_mem_range v h16 h235
        _ = ref := List.map_id ref
    unfold measure_distortion psnr_2d
    rw [hid, mse_self_zero, if_pos rfl]

theorem distortion_measure_amended_witness :
    (([20, 100] : List ℚ).length = ([16, 235] : List ℤ).length ∧
     ∀ v ∈ ([16, 235] : List ℤ), 16 ≤ v ∧ v ≤ 235) ∧
    (measure_distortion [16, 235] [20, 100] =
      psnr_2d [16, 235] (([20, 100] : List ℚ).map cast_bt601) ∧
    (mse [16, 235] (([20, 100] : List ℚ).map cast_bt601) = 0 →
      measure_distortion [16, 235] [20, 100] = ⊤) ∧
    (mse [16, 235] (([20, 100] : List ℚ).map cast_bt601) ≠ 0 →
      measure_distortion [16, 235] [20, 100] =
        ((10 * Real.logb 10 ((255 : ℝ) ^ 2 /
          (mse [16, 235] (([20, 100] : List ℚ).map cast_bt601) : ℝ)) : ℝ) :
          EReal)) ∧
    measure_distortion [16, 235]
      (([16, 235] : List ℤ).map (fun (v : ℤ) => (v : ℚ))) = ⊤) :=
  ⟨⟨rfl, by decide⟩,
   distortion_measure_amended [16, 235] [20, 100] rfl (by decide)⟩

/-! ### Claim C7: analytic rate lemmas -/

theorem rateCdf_strictMono {x y : ℝ} (h : x < y) : rateCdf x < rateCdf y := by
  unfold rateCdf
  have hdx : (0:ℝ) < 2 * (1 + |x|) := by positivity
  have hdy : (0:ℝ) < 2 * (1 + |y|) := by positivity
  have key : x * (2 * (1 + |y|)) < y * (2 * (1 + |x|)) := by
    rcases abs_cases x with ⟨hx1, hx2⟩ | ⟨hx1, hx2⟩ <;>
      rcases abs_cases y with ⟨hy1, hy2⟩ | ⟨hy1, hy2⟩ <;>
        rw [hx1, hy1] <;> nlinarith
  have := (div_lt_div_iff₀ hdx hdy).mpr key
  linarith

theorem rateCdf_mono {x y : ℝ} (h : x ≤ y) : rateCdf x ≤ rateCdf y := by
  rcases eq_or_lt_of_le h with h | h
  · rw [h]
  · exact le_of_lt (rateCdf_strictMono h)

theorem rateCdf_pos (x : ℝ) : 0 < rateCdf x := by
  unfold rateCdf
  have hd : (0:ℝ) < 2 * (1 + |x|) := by positivity
  have h1 : -(1 + |x|) ≤ x := by
    have := neg_abs_le x
    linarith [abs_nonneg x]
  have h2 : -(1/2 : ℝ) < x / (2 * (1 + |x|)) := by
    rw [neg_lt, ← neg_div]
    rw [div_lt_iff₀ hd]
    have := neg_abs_le x
    nlinarith [abs_nonneg x]
  linarith

theorem rateCdf_lt_one (x : ℝ) : rateCdf x < 1 := by
  unfold rateCdf
  have hd : (0:ℝ) < 2 * (1 + |x|) := by positivity
  have h2 : x / (2 * (1 + |x|)) < 1/2 := by
    rw [div_lt_iff₀ hd]
    have := le_abs_self x
    nlinarith [abs_nonneg x]
  linarith

theorem binProb_pos {b : ℝ} (v : ℝ) (hb : 0 < b) : 0 < binProb b v := by
  unfold binProb
  have : v - b / 2 < v + b / 2 := by linarith
  linarith [rateCdf_strictMono this]

theorem binProb_le_one (b v : ℝ) : binProb b v ≤ 1 := by
  unfold binProb
  linarith [rateCdf_lt_one (v + b / 2), rateCdf_pos (v - b / 2)]

theorem binProb_mono {b b' : ℝ} (v : ℝ) (h : b ≤ b') :
    binProb b v ≤ binProb b' v := by
  unfold binProb
  have h1 : rateCdf (v + b / 2) ≤ rateCdf (v + b' / 2) :=
    rateCdf_mono (by linarith)
  have h2 : rateCdf (v - b' / 2) ≤ rateCdf (v - b / 2) :=
    rateCdf_mono (by linarith)
  linarith

theorem codeLen_nonneg {b : ℝ} (v : ℝ) (hb : 0 < b) : 0 ≤ codeLen b v := by
  unfold codeLen
  have h := Real.logb_nonpos (by norm_num : (1:ℝ) < 2)
    (le_of_lt (binProb_pos v hb)) (binProb_le_one b v)
  linarith

theorem codeLen_anti {b b' : ℝ} (v : ℝ) (hb : 0 < b) (h : b ≤ b') :
    codeLen b' v ≤ codeLen b v := by
  unfold codeLen
  have hp : 0 < binProb b v := binProb_pos v hb
  have hp' : 0 < binProb b' v := binProb_pos v (lt_of_lt_of_le hb h)
  have hle : binProb b v ≤ binProb b' v := binProb_mono v h
  have := (Real.logb_le_logb (by norm_num : (1:ℝ) < 2) hp hp').mpr hle
  linarith

theorem mapCost_nonneg {b : ℝ} (vs : List ℝ) (hb : 0 < b) :
    0 ≤ mapCost b vs := by
  unfold mapCost
  induction vs with
  | nil => simp
  | cons v vs ih =>
    simp only [List.map_cons, List.sum_cons]
    have := codeLen_nonneg v hb
    linarith

theorem mapCost_anti {b b' : ℝ} (vs : List ℝ) (hb : 0 < b) (h : b ≤ b') :
    mapCost b' vs ≤ mapCost b vs := by
  unfold mapCost
  induction vs with
  | nil => simp
  | cons v vs ih =>
    simp only [List.map_cons, List.sum_cons]
    have := codeLen_anti v hb h
    linarith

theorem tensorCost_nonneg (maps : List (List ℝ)) (bws : List ℝ)
    (hb : ∀ b ∈ bws, 0 < b) :
    0 ≤ (List.zipWith mapCost bws maps).sum := by
  induction bws generalizing maps with
  | nil => simp
  | cons b bws ih =>
    cases maps with
    | nil => simp
    | cons vs maps =>
      simp only [List.zipWith_cons_cons, List.sum_cons]
      have h1 := mapCost_nonneg vs (hb b (List.mem_cons_self b bws))
      have h2 := ih maps (fun b' hb' => hb b' (List.mem_cons_of_mem b hb'))
      linarith

theorem tensorCost_anti (maps : List (List ℝ)) (bws bws' : List ℝ)
    (hb : List.Forall₂ (fun b b' => 0 < b ∧ b ≤ b') bws bws') :
    (List.zipWith mapCost bws' maps).sum ≤
      (List.zipWith mapCost bws maps).sum := by
  induction hb generalizing maps with
  | nil => simp
  | cons hbb _ ih =>
    cases maps with
    | nil => simp
    | cons vs maps =>
      simp only [List.zipWith_cons_cons, List.sum_cons]
      have h1 := mapCost_anti vs hbb.1 hbb.2
      have h2 := ih maps
      linarith

theorem forall₂_pos_left (bws bws' : List ℝ)
    (hb : List.Forall₂ (fun b b' => 0 < b ∧ b ≤ b') bws bws') :
    ∀ b ∈ bws, 0 < b := by
  induction hb with
  | nil => intro b hbm; exact absurd hbm (List.not_mem_nil b)
  | cons hbb _ ih =>
    intro b hbm
    rcases List.mem_cons.mp hbm with h | h
    · exact h ▸ hbb.1
    · exact ih b h

/-- **C7**: for a fixed quantized input, the analytic rate estimate is
non-negative and finite (a real number, well defined because every bin
probability is strictly positive), and non-increasing in the bin widths:
pricing the same quantized tensor with coarser (channel-wise larger) bin
widths never yields a larger bits-per-pixel value. -/
theorem analytic_rate_props (maps : List (List ℝ)) (bws bws' : List ℝ)
    (hIn wIn : Nat)
    (hb : List.Forall₂ (fun b b' => 0 < b ∧ b ≤ b') bws bws') :
    0 ≤ rate_3d maps bws hIn wIn ∧
    rate_3d maps bws' hIn wIn ≤ rate_3d maps bws hIn wIn ∧
    (∀ b ∈ bws, ∀ v : ℝ, 0 < binProb b v) := by
  have hpos := forall₂_pos_left bws bws' hb
  refine ⟨?_, ?_, ?_⟩
  · unfold rate_3d
    exact div_nonneg (tensorCost_nonneg maps bws hpos) (by positivity)
  · unfold rate_3d
    exact div_le_div_of_nonneg_right (tensorCost_anti maps bws bws' hb)
      (by positivity)
  · intro b hbm v
    exact binProb_pos v (hpos b hbm)

theorem analytic_rate_props_witness :
    List.Forall₂ (fun b b' => 0 < b ∧ b ≤ b') [(1:ℝ)] [(2:ℝ)] ∧
    (0 ≤ rate_3d [[0]] [(1:ℝ)] 8 8 ∧
     rate_3d [[0]] [(2:ℝ)] 8 8 ≤ rate_3d [[0]] [(1:ℝ)] 8 8 ∧
     (∀ b ∈ [(1:ℝ)], ∀ v : ℝ, 0 < binProb b v)) :=
  ⟨List.Forall₂.cons ⟨by norm_num, by norm_num⟩ List.Forall₂.nil,
   analytic_rate_props [[0]] [1] [2] 8 8
     (List.Forall₂.cons ⟨by norm_num, by norm_num⟩ List.Forall₂.nil)⟩
